import Mathlib

set_option maxHeartbeats 1000000
set_option linter.unusedVariables false

namespace RedditMarkdown

/-! Shallow embedding of the comment-tree flattening and rendering engine of
the reddit-markdown Rust sources (`src/rust/src/`): the reply flattener
`get_replies`, the reply counter `count_total_replies`, the content filter
`apply_filter`, the post-content builder of `post_renderer/content_builder.rs`
and the path resolver `generate_filename` of `reddit_utils/file_ops.rs`. -/

/-- JSON values as the program consumes them through serde_json: the reply
payloads only ever hold objects, arrays, strings and 64-bit integers at the
fields `get_replies` reads (`id`, `depth`, `body`, `replies`, `children`). -/
inductive Json where
  | null
  | bool (b : Bool)
  | num (n : Int)
  | str (s : String)
  | arr (elems : List Json)
  | obj (fields : List (String × Json))

namespace Json

/-- Key lookup in an object's field list, first match wins: serde_json's
`Value::get(key)` on the object case. -/
def lookupField (key : String) : List (String × Json) → Option Json
  | [] => none
  | (k, v) :: rest => if k = key then some v else lookupField key rest

/-- serde_json `Value::get(key)`: `none` on every non-object value. -/
def lookup (key : String) : Json → Option Json
  | .obj fields => lookupField key fields
  | _ => none

/-- serde_json `Value::as_str`. -/
def asStr : Json → Option String
  | .str s => some s
  | _ => none

/-- serde_json `Value::as_i64` on the integer numbers the payload carries. -/
def asI64 : Json → Option Int
  | .num n => some n
  | _ => none

/-- serde_json `Value::as_array`. -/
def asArray : Json → Option (List Json)
  | .arr elems => some elems
  | _ => none

/-- The children array `get_replies` walks: `reply_data.pointer("/data/replies")`
chained with `.pointer("/data/children")` and `.as_array()`
(`src/rust/src/reddit_utils/replies.rs` lines 9-12); over these object keys the
JSON pointers are chains of `get`. -/
def childrenOf (reply_data : Json) : Option (List Json) :=
  ((((reply_data.lookup "data").bind (lookup "replies")).bind
      (lookup "data")).bind (lookup "children")).bind asArray

theorem sizeOf_lookupField {key : String} : ∀ {fields : List (String × Json)} {v : Json},
    lookupField key fields = some v → sizeOf v < sizeOf fields
  | [], v => by simp [lookupField]
  | (k, w) :: rest, v => by
    simp only [lookupField]
    split
    · intro h
      cases h
      simp
      omega
    · intro h
      have := @sizeOf_lookupField key rest v h
      simp
      omega

theorem sizeOf_lookup {key : String} {v w : Json} (h : v.lookup key = some w) :
    sizeOf w < sizeOf v := by
  cases v <;> simp [lookup] at h
  case obj fields =>
    have := @sizeOf_lookupField key fields w h
    simp
    omega

theorem sizeOf_asArray : ∀ {v : Json} {l : List Json}, v.asArray = some l → sizeOf l < sizeOf v
  | .arr elems, l, h => by
    simp [asArray] at h
    subst h
    simp
  | .null, _, h => by simp [asArray] at h
  | .bool _, _, h => by simp [asArray] at h
  | .num _, _, h => by simp [asArray] at h
  | .str _, _, h => by simp [asArray] at h
  | .obj _, _, h => by simp [asArray] at h

theorem sizeOf_childrenOf {v : Json} {cs : List Json} (h : childrenOf v = some cs) :
    sizeOf cs < sizeOf v := by
  simp only [childrenOf] at h
  rcases Option.bind_eq_some.mp h with ⟨d, hd, harr⟩
  rcases Option.bind_eq_some.mp hd with ⟨c, hc, hcd⟩
  rcases Option.bind_eq_some.mp hc with ⟨b, hb, hbc⟩
  rcases Option.bind_eq_some.mp hb with ⟨a, ha, hab⟩
  exact lt_trans (sizeOf_asArray harr) (lt_trans (sizeOf_lookup hcd)
    (lt_trans (sizeOf_lookup hbc) (lt_trans (sizeOf_lookup hab) (sizeOf_lookup ha))))

theorem sizeOf_mem_children {v : Json} {cs : List Json} {c : Json}
    (h : childrenOf v = some cs) (hc : c ∈ cs) : sizeOf c < sizeOf v :=
  lt_trans (List.sizeOf_lt_of_mem hc) (sizeOf_childrenOf h)

end Json

/-- Rust's `as i32` conversion of an `i64` value: wrap into `[-2^31, 2^31)`. -/
def wrap32 (n : Int) : Int := (n + 2 ^ 31) % 2 ^ 32 - 2 ^ 31

/-- `child.get("data").and_then(|d| d.get("id")).and_then(|id| id.as_str()).unwrap_or("")`. -/
def childId (child : Json) : String :=
  (((child.lookup "data").bind (Json.lookup "id")).bind Json.asStr).getD ""

/-- `child.get("data").and_then(|d| d.get("depth")).and_then(|d| d.as_i64()).unwrap_or(0) as i32`. -/
def childDepth (child : Json) : Int :=
  wrap32 ((((child.lookup "data").bind (Json.lookup "depth")).bind Json.asI64).getD 0)

/-- `child.get("data").and_then(|d| d.get("body")).and_then(|b| b.as_str()).unwrap_or("")`. -/
def childBody (child : Json) : String :=
  (((child.lookup "data").bind (Json.lookup "body")).bind Json.asStr).getD ""

/-- Rust `child_body.trim().is_empty()`: true exactly when every character of
the body is whitespace (Rust trims the characters `Char.isWhitespace` covers
on these payloads). -/
def blankBody (s : String) : Bool := s.data.all fun c => c.isWhitespace

/-- The inner `HashMap<String, Value>` built for each collected child holds
exactly the keys `"depth"` (the converted depth) and `"child_reply"` (the
child's whole JSON); its extension is this record. -/
structure ChildInfo where
  depth : Int
  child_reply : Json

/-- The extension of the outer `HashMap<String, HashMap<String, Value>>`
returned by `get_replies`, represented canonically as an association list
strictly sorted by key, so two maps are equal exactly when they hold the same
key-value pairs. Rust's `std::collections::HashMap` specifies only this
extension; its iteration order is unspecified. -/
abbrev RMap := List (String × ChildInfo)

/-- `HashMap::insert`: replace the value at the key, keeping the canonical
sorted representation. -/
def RMap.insert (k : String) (v : ChildInfo) : RMap → RMap
  | [] => [(k, v)]
  | (k₁, v₁) :: rest =>
    if k < k₁ then (k, v) :: (k₁, v₁) :: rest
    else if k = k₁ then (k, v) :: rest
    else (k₁, v₁) :: RMap.insert k v rest

/-- `HashMap::extend`: insert every pair of `other`, later values replacing. -/
def RMap.extend (m other : RMap) : RMap :=
  other.foldl (fun acc kv => RMap.insert kv.1 kv.2 acc) m

def RMap.keys (m : RMap) : List String := m.map Prod.fst

mutual

/-- Embeds `get_replies` of `src/rust/src/reddit_utils/replies.rs` (lines
5-56): collect, keyed by id, every child of the `/data/replies/data/children`
array that survives the depth check and the blank-body check, together with
everything its own subtree contributes, into one `HashMap`. -/
def get_replies (reply_data : Json) (max_depth : Int) : RMap :=
  match h : Json.childrenOf reply_data with
  | none => []
  | some children => repliesLoop children max_depth []
termination_by sizeOf reply_data
decreasing_by
exact Json.sizeOf_childrenOf h

/-- The `for child in children` loop of `get_replies`, with `collected` as the
accumulated map. A `continue` (depth exceeded, or blank body) moves to the next
child without inserting and without recursing into the skipped child. -/
def repliesLoop : List Json → Int → RMap → RMap
  | [], _, collected => collected
  | child :: rest, max_depth, collected =>
    if max_depth ≠ -1 ∧ childDepth child > max_depth then
      repliesLoop rest max_depth collected
    else if blankBody (childBody child) then
      repliesLoop rest max_depth collected
    else
      repliesLoop rest max_depth
        (RMap.extend (RMap.insert (childId child) ⟨childDepth child, child⟩ collected)
          (get_replies child max_depth))
termination_by children _ _ => sizeOf children
decreasing_by
all_goals simp
all_goals omega

end

mutual

/-- The depth-first pre-order sequence of the very same traversal
`get_replies` performs (same depth check, same blank-body skip, same
no-descent on a skip): the order-preserving view of the flattened tree that
the specification describes. `get_replies` discards this order by keying a
`HashMap` on the id. -/
def flattenSeq (reply_data : Json) (max_depth : Int) : List (String × ChildInfo) :=
  match h : Json.childrenOf reply_data with
  | none => []
  | some children => flattenLoop children max_depth
termination_by sizeOf reply_data
decreasing_by
exact Json.sizeOf_childrenOf h

/-- The loop of `flattenSeq` over one children array, in payload order. -/
def flattenLoop : List Json → Int → List (String × ChildInfo)
  | [], _ => []
  | child :: rest, max_depth =>
    if max_depth ≠ -1 ∧ childDepth child > max_depth then
      flattenLoop rest max_depth
    else if blankBody (childBody child) then
      flattenLoop rest max_depth
    else
      ((childId child, ⟨childDepth child, child⟩) :: flattenSeq child max_depth) ++
        flattenLoop rest max_depth
termination_by children _ => sizeOf children
decreasing_by
all_goals simp
all_goals omega

end

/-- An API-shaped comment node as the tests of the repository build them: the
`data` object carries `id`, `depth`, `body` and the nested
`replies/data/children` array. -/
def mkChild (id : String) (depth : Int) (body : String) (children : List Json) : Json :=
  Json.obj [("data", Json.obj
    [("id", Json.str id), ("depth", Json.num depth), ("body", Json.str body),
     ("replies", Json.obj [("data", Json.obj [("children", Json.arr children)])])])]

theorem RMap.keys_cons {k : String} {v : ChildInfo} {m : RMap} :
    RMap.keys ((k, v) :: m) = k :: RMap.keys m := rfl

theorem RMap.mem_insert {k : String} {v : ChildInfo} :
    ∀ {m : RMap} {e : String × ChildInfo}, e ∈ RMap.insert k v m → e = (k, v) ∨ e ∈ m
  | [], e, h => by
    simp [RMap.insert] at h
    exact Or.inl h
  | (k₁, v₁) :: rest, e, h => by
    simp only [RMap.insert] at h
    split at h
    · rcases List.mem_cons.mp h with h | h
      · exact Or.inl h
      · exact Or.inr h
    · split at h
      · rcases List.mem_cons.mp h with h | h
        · exact Or.inl h
        · exact Or.inr (List.mem_cons_of_mem _ h)
      · rcases List.mem_cons.mp h with h | h
        · exact Or.inr (h ▸ List.mem_cons_self _ _)
        · rcases RMap.mem_insert h with h | h
          · exact Or.inl h
          · exact Or.inr (List.mem_cons_of_mem _ h)

theorem RMap.insert_perm {k : String} {v : ChildInfo} :
    ∀ {m : RMap}, k ∉ RMap.keys m → List.Perm (RMap.insert k v m) ((k, v) :: m)
  | [], _ => by simp [RMap.insert]
  | (k₁, v₁) :: rest, h => by
    rw [RMap.keys_cons] at h
    have hk : k ≠ k₁ := fun he => h (he ▸ List.mem_cons_self _ _)
    have hrest : k ∉ RMap.keys rest := fun hm => h (List.mem_cons_of_mem _ hm)
    simp only [RMap.insert, if_neg hk]
    split
    · exact List.Perm.refl _
    · exact List.Perm.trans (List.Perm.cons _ (RMap.insert_perm hrest)) (List.Perm.swap _ _ _)

theorem RMap.keys_perm {m m' : RMap} (h : List.Perm m m') :
    List.Perm (RMap.keys m) (RMap.keys m') := h.map Prod.fst

theorem RMap.extend_perm :
    ∀ {other m : RMap}, (RMap.keys other).Nodup →
      (∀ x ∈ RMap.keys other, x ∉ RMap.keys m) →
      List.Perm (RMap.extend m other) (m ++ other)
  | [], m, _, _ => by simp [RMap.extend]
  | (k, v) :: rest, m, hn, hd => by
    rw [RMap.keys_cons] at hn hd
    have hkm : k ∉ RMap.keys m := hd k (List.mem_cons_self _ _)
    have hkrest : k ∉ RMap.keys rest := (List.nodup_cons.mp hn).1
    have hnrest : (RMap.keys rest).Nodup := (List.nodup_cons.mp hn).2
    have hins : List.Perm (RMap.insert k v m) ((k, v) :: m) := RMap.insert_perm hkm
    have hdrest : ∀ x ∈ RMap.keys rest, x ∉ RMap.keys (RMap.insert k v m) := by
      intro x hx hmem
      have hx₂ : x ∈ RMap.keys ((k, v) :: m) := (RMap.keys_perm hins).mem_iff.mp hmem
      rw [RMap.keys_cons] at hx₂
      rcases List.mem_cons.mp hx₂ with h | h
      · exact hkrest (h ▸ hx)
      · exact hd x (List.mem_cons_of_mem _ hx) h
    have hstep : RMap.extend m ((k, v) :: rest) = RMap.extend (RMap.insert k v m) rest := by
      simp [RMap.extend]
    rw [hstep]
    refine List.Perm.trans (RMap.extend_perm hnrest hdrest) ?_
    refine List.Perm.trans (hins.append_right rest) ?_
    exact List.perm_middle.symm



theorem get_replies_eq_none {v : Json} {d : Int} (h : Json.childrenOf v = none) :
    get_replies v d = [] := by
  rw [get_replies, h]

theorem get_replies_eq_some {v : Json} {d : Int} {cs : List Json}
    (h : Json.childrenOf v = some cs) : get_replies v d = repliesLoop cs d [] := by
  rw [get_replies, h]

theorem repliesLoop_nil {d : Int} {acc : RMap} : repliesLoop [] d acc = acc := by
  rw [repliesLoop]

theorem repliesLoop_cons {c : Json} {rest : List Json} {d : Int} {acc : RMap} :
    repliesLoop (c :: rest) d acc =
      if d ≠ -1 ∧ childDepth c > d then repliesLoop rest d acc
      else if blankBody (childBody c) then repliesLoop rest d acc
      else repliesLoop rest d
        (RMap.extend (RMap.insert (childId c) ⟨childDepth c, c⟩ acc) (get_replies c d)) := by
  rw [repliesLoop]



theorem flattenSeq_eq_none {v : Json} {d : Int} (h : Json.childrenOf v = none) :
    flattenSeq v d = [] := by rw [flattenSeq, h]

theorem flattenSeq_eq_some {v : Json} {d : Int} {cs : List Json}
    (h : Json.childrenOf v = some cs) : flattenSeq v d = flattenLoop cs d := by
  rw [flattenSeq, h]

theorem flattenLoop_nil {d : Int} : flattenLoop [] d = [] := by rw [flattenLoop]

theorem flattenLoop_cons {c : Json} {rest : List Json} {d : Int} :
    flattenLoop (c :: rest) d =
      if d ≠ -1 ∧ childDepth c > d then flattenLoop rest d
      else if blankBody (childBody c) then flattenLoop rest d
      else ((childId c, ⟨childDepth c, c⟩) :: flattenSeq c d) ++ flattenLoop rest d := by
  rw [flattenLoop]

theorem repliesPermAux : ∀ n : Nat,
    (∀ v : Json, sizeOf v ≤ n → ∀ d : Int, ((flattenSeq v d).map Prod.fst).Nodup →
      List.Perm (get_replies v d) (flattenSeq v d)) ∧
    (∀ l : List Json, sizeOf l ≤ n → ∀ (d : Int) (acc : RMap),
      (RMap.keys acc ++ (flattenLoop l d).map Prod.fst).Nodup →
      List.Perm (repliesLoop l d acc) (acc ++ flattenLoop l d)) := by
  intro n
  induction n using Nat.strong_induction_on with
  | _ n ih =>
    constructor
    · intro v hv d hn
      rcases hc : Json.childrenOf v with _ | children
      · rw [get_replies_eq_none hc, flattenSeq_eq_none hc]
      · rw [get_replies_eq_some hc, flattenSeq_eq_some hc]
        have hsz : sizeOf children < n := lt_of_lt_of_le (Json.sizeOf_childrenOf hc) hv
        rw [flattenSeq_eq_some hc] at hn
        have hres := (ih (sizeOf children) hsz).2 children le_rfl d []
          (by simpa [RMap.keys] using hn)
        simpa using hres
    · intro l hl d acc hn
      cases l with
      | nil => simp [repliesLoop_nil, flattenLoop_nil]
      | cons child rest =>
        have hsrest : sizeOf rest < n := by
          have h₁ : sizeOf rest < sizeOf (child :: rest) := by simp
          omega
        have hschild : sizeOf child < n := by
          have h₁ : sizeOf child < sizeOf (child :: rest) := by
            simp
            omega
          omega
        by_cases h1 : d ≠ -1 ∧ childDepth child > d
        · rw [flattenLoop_cons, if_pos h1] at hn ⊢
          rw [repliesLoop_cons, if_pos h1]
          exact (ih (sizeOf rest) hsrest).2 rest le_rfl d acc hn
        · by_cases h2 : blankBody (childBody child)
          · rw [flattenLoop_cons, if_neg h1, if_pos h2] at hn ⊢
            rw [repliesLoop_cons, if_neg h1, if_pos h2]
            exact (ih (sizeOf rest) hsrest).2 rest le_rfl d acc hn
          · rw [flattenLoop_cons, if_neg h1, if_neg h2] at hn ⊢
            rw [repliesLoop_cons, if_neg h1, if_neg h2]
            -- abbreviations
            have hn' : (RMap.keys acc ++ childId child ::
                ((flattenSeq child d).map Prod.fst ++ (flattenLoop rest d).map Prod.fst)).Nodup := by
              simpa using hn
            -- decompose the Nodup hypothesis
            have hperm₀ : List.Perm
                (RMap.keys acc ++ childId child ::
                  ((flattenSeq child d).map Prod.fst ++ (flattenLoop rest d).map Prod.fst))
                (childId child ::
                  (RMap.keys acc ++ ((flattenSeq child d).map Prod.fst ++ (flattenLoop rest d).map Prod.fst))) :=
              List.perm_middle
            have hn₀ : (childId child ::
                (RMap.keys acc ++ ((flattenSeq child d).map Prod.fst ++ (flattenLoop rest d).map Prod.fst))).Nodup :=
              hperm₀.nodup_iff.mp hn'
            have hid_nmem : childId child ∉
                RMap.keys acc ++ ((flattenSeq child d).map Prod.fst ++ (flattenLoop rest d).map Prod.fst) :=
              (List.nodup_cons.mp hn₀).1
            have hrest_nodup : (RMap.keys acc ++ ((flattenSeq child d).map Prod.fst ++ (flattenLoop rest d).map Prod.fst)).Nodup :=
              (List.nodup_cons.mp hn₀).2
            rw [List.nodup_append] at hrest_nodup
            obtain ⟨hA_nodup, hSR_nodup, hA_disj⟩ := hrest_nodup
            rw [List.nodup_append] at hSR_nodup
            obtain ⟨hS_nodup, hR_nodup, hS_disj_R⟩ := hSR_nodup
            -- the child's own subtree
            have hchild := (ih (sizeOf child) hschild).1 child le_rfl d hS_nodup
            have hkeysG : List.Perm (RMap.keys (get_replies child d))
                ((flattenSeq child d).map Prod.fst) := hchild.map Prod.fst
            have hidA : childId child ∉ RMap.keys acc := by
              intro hmem
              exact hid_nmem (List.mem_append_left _ hmem)
            have hins : List.Perm (RMap.insert (childId child) ⟨childDepth child, child⟩ acc)
                ((childId child, ⟨childDepth child, child⟩) :: acc) := RMap.insert_perm hidA
            have hkeys_ins : List.Perm
                (RMap.keys (RMap.insert (childId child) ⟨childDepth child, child⟩ acc))
                (childId child :: RMap.keys acc) := hins.map Prod.fst
            have hGnodup : (RMap.keys (get_replies child d)).Nodup :=
              hkeysG.nodup_iff.mpr hS_nodup
            have hGdisj : ∀ x ∈ RMap.keys (get_replies child d),
                x ∉ RMap.keys (RMap.insert (childId child) ⟨childDepth child, child⟩ acc) := by
              intro x hx hmem
              have hxS : x ∈ (flattenSeq child d).map Prod.fst := hkeysG.mem_iff.mp hx
              have hx₂ : x ∈ childId child :: RMap.keys acc := hkeys_ins.mem_iff.mp hmem
              rcases List.mem_cons.mp hx₂ with h | h
              · exact hid_nmem (List.mem_append_right _ (List.mem_append_left _ (h ▸ hxS)))
              · exact hA_disj h (List.mem_append_left _ hxS)
            have hext : List.Perm
                (RMap.extend (RMap.insert (childId child) ⟨childDepth child, child⟩ acc) (get_replies child d))
                ((childId child, ⟨childDepth child, child⟩) :: (acc ++ flattenSeq child d)) := by
              refine List.Perm.trans (RMap.extend_perm hGnodup hGdisj) ?_
              refine List.Perm.trans (List.Perm.append hins hchild) ?_
              simp
            -- Nodup premise for the recursive call on rest
            have hacc₂keys : List.Perm
                (RMap.keys (RMap.extend (RMap.insert (childId child) ⟨childDepth child, child⟩ acc) (get_replies child d)))
                (childId child :: (RMap.keys acc ++ (flattenSeq child d).map Prod.fst)) := by
              have := hext.map Prod.fst
              simpa [RMap.keys] using this
            have hp₂ : List.Perm
                (RMap.keys (RMap.extend (RMap.insert (childId child) ⟨childDepth child, child⟩ acc) (get_replies child d)) ++
                  (flattenLoop rest d).map Prod.fst)
                ((childId child :: (RMap.keys acc ++ (flattenSeq child d).map Prod.fst)) ++
                  (flattenLoop rest d).map Prod.fst) :=
              List.Perm.append_right _ hacc₂keys
            have hn₂ : (RMap.keys (RMap.extend (RMap.insert (childId child) ⟨childDepth child, child⟩ acc) (get_replies child d)) ++
                (flattenLoop rest d).map Prod.fst).Nodup :=
              hp₂.nodup_iff.mpr (by simpa [List.append_assoc] using hn₀)
            have hrec := (ih (sizeOf rest) hsrest).2 rest le_rfl d
              (RMap.extend (RMap.insert (childId child) ⟨childDepth child, child⟩ acc) (get_replies child d)) hn₂
            refine List.Perm.trans hrec ?_
            refine List.Perm.trans (List.Perm.append_right _ hext) ?_
            simp only [List.cons_append, List.append_assoc]
            exact List.perm_middle.symm

/-- When the flattened ids are distinct (the API does not repeat ids within a
thread), the map `get_replies` returns holds exactly the entries of the ordered
depth-first sequence, as a permutation. -/
theorem get_replies_perm_flattenSeq (v : Json) (d : Int)
    (h : ((flattenSeq v d).map Prod.fst).Nodup) :
    List.Perm (get_replies v d) (flattenSeq v d) :=
  (repliesPermAux (sizeOf v)).1 v le_rfl d h

theorem RMap.mem_extend :
    ∀ {other m : RMap} {e : String × ChildInfo}, e ∈ RMap.extend m other → e ∈ m ∨ e ∈ other
  | [], m, e, h => by
    simp [RMap.extend] at h
    exact Or.inl h
  | (k, v) :: rest, m, e, h => by
    have hstep : RMap.extend m ((k, v) :: rest) = RMap.extend (RMap.insert k v m) rest := by
      simp [RMap.extend]
    rw [hstep] at h
    rcases RMap.mem_extend h with h | h
    · rcases RMap.mem_insert h with h | h
      · exact Or.inr (h ▸ List.mem_cons_self _ _)
      · exact Or.inl h
    · exact Or.inr (List.mem_cons_of_mem _ h)

/-- Every entry the flattener collects stores a non-blank body, and — when the
depth limit is not the `-1` sentinel — a depth within the limit; skipped
children contribute nothing because the `continue` skips the recursion too. -/
theorem repliesEntriesAux : ∀ n : Nat,
    (∀ v : Json, sizeOf v ≤ n → ∀ (d : Int) (e : String × ChildInfo), e ∈ get_replies v d →
      blankBody (childBody e.2.child_reply) = false ∧ (d ≠ -1 → e.2.depth ≤ d)) ∧
    (∀ l : List Json, sizeOf l ≤ n → ∀ (d : Int) (acc : RMap) (e : String × ChildInfo),
      (∀ e₀ ∈ acc, blankBody (childBody e₀.2.child_reply) = false ∧ (d ≠ -1 → e₀.2.depth ≤ d)) →
      e ∈ repliesLoop l d acc →
      blankBody (childBody e.2.child_reply) = false ∧ (d ≠ -1 → e.2.depth ≤ d)) := by
  intro n
  induction n using Nat.strong_induction_on with
  | _ n ih =>
    constructor
    · intro v hv d e he
      rcases hc : Json.childrenOf v with _ | children
      · rw [get_replies_eq_none hc] at he
        simp at he
      · rw [get_replies_eq_some hc] at he
        have hsz : sizeOf children < n := lt_of_lt_of_le (Json.sizeOf_childrenOf hc) hv
        exact (ih (sizeOf children) hsz).2 children le_rfl d [] e (by simp) he
    · intro l hl d acc e hacc he
      cases l with
      | nil =>
        rw [repliesLoop_nil] at he
        exact hacc e he
      | cons child rest =>
        have hsrest : sizeOf rest < n := by
          have h₁ : sizeOf rest < sizeOf (child :: rest) := by simp
          omega
        have hschild : sizeOf child < n := by
          have h₁ : sizeOf child < sizeOf (child :: rest) := by
            simp
            omega
          omega
        by_cases h1 : d ≠ -1 ∧ childDepth child > d
        · rw [repliesLoop_cons, if_pos h1] at he
          exact (ih (sizeOf rest) hsrest).2 rest le_rfl d acc e hacc he
        · by_cases h2 : blankBody (childBody child)
          · rw [repliesLoop_cons, if_neg h1, if_pos h2] at he
            exact (ih (sizeOf rest) hsrest).2 rest le_rfl d acc e hacc he
          · rw [repliesLoop_cons, if_neg h1, if_neg h2] at he
            refine (ih (sizeOf rest) hsrest).2 rest le_rfl d _ e ?_ he
            intro e₀ he₀
            rcases RMap.mem_extend he₀ with he₀ | he₀
            · rcases RMap.mem_insert he₀ with he₀ | he₀
              · subst he₀
                refine ⟨by simpa using h2, fun hd => ?_⟩
                push_neg at h1
                exact h1 hd
              · exact hacc e₀ he₀
            · exact (ih (sizeOf child) hschild).1 child le_rfl d e₀ he₀

/-- The filter settings sub-structure of `Settings` (`src/rust/src/settings.rs`
lines 22-27). -/
structure Filters where
  keywords : List String
  min_upvotes : Int
  authors : List String
  regexes : List String

/-- The fields of `Settings` (`src/rust/src/settings.rs` lines 30-50) that the
rendering core reads; the I/O-only fields (auth, save locations, multireddits)
are omitted. -/
structure Settings where
  show_upvotes : Bool
  reply_depth_max : Int
  reply_depth_color_indicators : Bool
  line_break_between_parent_replies : Bool
  show_auto_mod_comment : Bool
  show_timestamp : Bool
  filtered_message : String
  filters : Filters
  enable_media_downloads : Bool

/-- A concrete render configuration for the sample runs: unlimited reply
depth, every display toggle off, no filters. -/
def sampleSettings : Settings :=
  { show_upvotes := false, reply_depth_max := -1, reply_depth_color_indicators := false,
    line_break_between_parent_replies := false, show_auto_mod_comment := false,
    show_timestamp := false, filtered_message := "[filtered]",
    filters := { keywords := [], min_upvotes := 0, authors := [], regexes := [] },
    enable_media_downloads := false }

/-- Embeds `count_total_replies` of
`src/rust/src/post_renderer/reply_processor.rs` (lines 36-43): the number of
top-level reply objects plus, for each, the size of the map `get_replies`
returns at the configured depth limit. -/
def count_total_replies (replies_data : List Json) (settings : Settings) : Nat :=
  replies_data.foldl
    (fun total rd => total + (get_replies rd settings.reply_depth_max).length)
    replies_data.length

theorem foldl_add_length {α : Type} (f : α → Nat) :
    ∀ (l : List α) (init : Nat), l.foldl (fun t x => t + f x) init = init + (l.map f).sum
  | [], init => by simp
  | x :: rest, init => by
    simp [foldl_add_length f rest]
    omega

mutual

/-- Modelled from the spec: the flattened-descendant sequence the reply-count
line is specified to report, "not filtered for empty bodies removed during
flattening" (spec section 4.4 step 5 and section 9) — every child within the
depth limit is counted, blank-bodied or not. No function of the repository
computes this; it exists to state what the spec predicts the count to be. -/
def flattenSeqAll (reply_data : Json) (max_depth : Int) : List (String × ChildInfo) :=
  match h : Json.childrenOf reply_data with
  | none => []
  | some children => flattenLoopAll children max_depth
termination_by sizeOf reply_data
decreasing_by
exact Json.sizeOf_childrenOf h

/-- The loop of `flattenSeqAll` over one children array. -/
def flattenLoopAll : List Json → Int → List (String × ChildInfo)
  | [], _ => []
  | child :: rest, max_depth =>
    if max_depth ≠ -1 ∧ childDepth child > max_depth then
      flattenLoopAll rest max_depth
    else
      ((childId child, ⟨childDepth child, child⟩) :: flattenSeqAll child max_depth) ++
        flattenLoopAll rest max_depth
termination_by children _ => sizeOf children
decreasing_by
all_goals simp
all_goals omega

end

/-- C1: the claim says the rendered document preserves the payload's sibling
order at every level (depth-first pre-order) and is deterministic across runs.
The code returns the descendants as a `std::collections::HashMap` keyed by id
and the renderer iterates that map, whose iteration order is unspecified. Two
payloads that differ only in the order of two siblings produce the *identical*
map — the extension of the map is sibling-order-invariant — while their
depth-first pre-orders differ, so no consumer of the map can emit both inputs
in payload order; the information is already destroyed. -/
theorem get_replies_discards_sibling_order :
    get_replies (mkChild "root" 0 "r" [mkChild "a" 1 "hi" [], mkChild "b" 1 "yo" []]) (-1) =
      get_replies (mkChild "root" 0 "r" [mkChild "b" 1 "yo" [], mkChild "a" 1 "hi" []]) (-1) ∧
    (flattenSeq (mkChild "root" 0 "r" [mkChild "a" 1 "hi" [], mkChild "b" 1 "yo" []]) (-1)).map
        Prod.fst = ["a", "b"] ∧
    (flattenSeq (mkChild "root" 0 "r" [mkChild "b" 1 "yo" [], mkChild "a" 1 "hi" []]) (-1)).map
        Prod.fst = ["b", "a"] := by
  refine ⟨?_, ?_, ?_⟩ <;>
    simp +decide [get_replies, repliesLoop, flattenSeq, flattenLoop, mkChild, Json.childrenOf,
      Json.lookup, Json.lookupField, Json.asArray, childId, childDepth, childBody, wrap32,
      Json.asStr, Json.asI64, blankBody, RMap.insert, RMap.extend]

/-- C2 counterexample: a child with the whitespace-only body `"   "` carries a
child `c` with the non-blank body `"hi"` at depth 1, well within the unlimited
depth, yet the flattened map is empty: the `continue` on a blank body also
skips the recursive call, so `c` is never visited, against the claim that the
children of a skipped node still appear. -/
theorem empty_body_child_suppresses_subtree :
    get_replies (mkChild "root" 0 "r" [mkChild "e" 0 "   " [mkChild "c" 1 "hi" []]]) (-1) = [] ∧
    blankBody (childBody (mkChild "c" 1 "hi" [])) = false ∧
    childId (mkChild "c" 1 "hi" []) = "c" := by
  refine ⟨?_, by decide, by decide⟩
  simp +decide [get_replies, repliesLoop, mkChild, Json.childrenOf,
    Json.lookup, Json.lookupField, Json.asArray, childId, childDepth, childBody, wrap32,
    Json.asStr, Json.asI64, blankBody, RMap.insert, RMap.extend]

/-- C2 as amended: a node whose body is empty or whitespace-only never appears
in the flattened output, and its whole subtree is skipped with it (the
blank-body `continue` does not descend into the skipped node's children);
removing such a child from its siblings' list leaves the result unchanged. -/
theorem blank_body_skip_prunes_subtree :
    (∀ (v : Json) (d : Int) (e : String × ChildInfo), e ∈ get_replies v d →
      blankBody (childBody e.2.child_reply) = false) ∧
    (∀ (l₁ l₂ : List Json) (c : Json) (d : Int) (acc : RMap),
      blankBody (childBody c) = true →
      repliesLoop (l₁ ++ c :: l₂) d acc = repliesLoop (l₁ ++ l₂) d acc) := by
  constructor
  · intro v d e he
    exact ((repliesEntriesAux (sizeOf v)).1 v le_rfl d e he).1
  · intro l₁ l₂ c d acc hblank
    induction l₁ generalizing acc with
    | nil =>
      simp only [List.nil_append]
      rw [repliesLoop_cons]
      by_cases h1 : d ≠ -1 ∧ childDepth c > d
      · rw [if_pos h1]
      · rw [if_neg h1, if_pos hblank]
    | cons a l₁ ihl =>
      simp only [List.cons_append]
      rw [repliesLoop_cons, repliesLoop_cons]
      by_cases h1 : d ≠ -1 ∧ childDepth a > d
      · rw [if_pos h1, if_pos h1]
        exact ihl acc
      · by_cases h2 : blankBody (childBody a)
        · rw [if_neg h1, if_pos h2, if_neg h1, if_pos h2]
          exact ihl acc
        · rw [if_neg h1, if_neg h2, if_neg h1, if_neg h2]
          exact ihl _

/-- Witness for C2's amended theorem at a concrete blank-bodied child. -/
theorem blank_body_skip_prunes_subtree_witness :
    repliesLoop [mkChild "e" 0 " " [mkChild "c" 1 "hi" []]] (-1) [] =
      repliesLoop [] (-1) [] :=
  blank_body_skip_prunes_subtree.2 [] [] (mkChild "e" 0 " " [mkChild "c" 1 "hi" []]) (-1) []
    (by decide)

/-- C3 counterexample: one top-level comment whose only descendant has the
empty body. `count_total_replies` reports 1 — the blank-bodied descendant is
dropped by `get_replies` before it is counted — while the claimed unfiltered
count (top-level comments plus every flattened descendant, blank or not,
modelled by `flattenSeqAll`) is 2. -/
theorem reply_count_counts_no_blank_bodies :
    count_total_replies [mkChild "t" 0 "body" [mkChild "x" 1 "" []]] sampleSettings = 1 ∧
    [mkChild "t" 0 "body" [mkChild "x" 1 "" []]].length +
      ([mkChild "t" 0 "body" [mkChild "x" 1 "" []]].map
        (fun rd => (flattenSeqAll rd sampleSettings.reply_depth_max).length)).sum = 2 := by
  constructor
  · simp +decide [count_total_replies, sampleSettings, get_replies, repliesLoop, mkChild,
      Json.childrenOf, Json.lookup, Json.lookupField, Json.asArray, childId, childDepth,
      childBody, wrap32, Json.asStr, Json.asI64, blankBody, RMap.insert, RMap.extend]
  · simp +decide [flattenSeqAll, flattenLoopAll, sampleSettings, mkChild, Json.childrenOf,
      Json.lookup, Json.lookupField, Json.asArray, childId, childDepth, childBody, wrap32,
      Json.asStr, Json.asI64, blankBody]

/-- C3 as amended: the reply-count line reports the number of top-level reply
objects plus, for each, the number of *collected* flattened descendants — the
depth-limited depth-first sequence that skips blank-bodied subtrees — provided
the thread's ids are distinct (the API invariant; with repeated ids the map
would collapse them). -/
theorem count_total_replies_eq_flatten_lengths (replies_data : List Json) (settings : Settings)
    (h : ∀ rd ∈ replies_data, ((flattenSeq rd settings.reply_depth_max).map Prod.fst).Nodup) :
    count_total_replies replies_data settings =
      replies_data.length +
        (replies_data.map fun rd => (flattenSeq rd settings.reply_depth_max).length).sum := by
  rw [count_total_replies, foldl_add_length]
  congr 1
  refine congrArg List.sum (List.map_congr_left ?_)
  intro rd hrd
  exact (get_replies_perm_flattenSeq rd settings.reply_depth_max (h rd hrd)).length_eq

/-- Witness for C3's amended theorem on a two-node thread. -/
theorem count_total_replies_eq_flatten_lengths_witness :
    count_total_replies [mkChild "t" 0 "body" [mkChild "y" 1 "hi" []]] sampleSettings =
      [mkChild "t" 0 "body" [mkChild "y" 1 "hi" []]].length +
        ([mkChild "t" 0 "body" [mkChild "y" 1 "hi" []]].map
          fun rd => (flattenSeq rd sampleSettings.reply_depth_max).length).sum :=
  count_total_replies_eq_flatten_lengths _ _ (by
    intro rd hrd
    simp at hrd
    subst hrd
    simp +decide [flattenSeq, flattenLoop, sampleSettings, mkChild, Json.childrenOf,
      Json.lookup, Json.lookupField, Json.asArray, childId, childDepth, childBody, wrap32,
      Json.asStr, Json.asI64, blankBody])

/-- C4: with a depth limit other than the `-1` sentinel, every collected entry
has depth at most the limit; and on a concrete tree with nodes at depths 0-5
under `max_depth = 2`, the node `p` (depth 3) is pruned together with its
whole subtree — its child `q`, whose own depth field is 2 and thus within the
limit, is absent — while `p`'s siblings `s` (depth 2, kept, its own deeper
subtree pruned) and `w` (depth 1, kept) survive. -/
theorem depth_pruning_skips_subtrees :
    (∀ (v : Json) (d : Int) (e : String × ChildInfo), d ≠ -1 → e ∈ get_replies v d →
      e.2.depth ≤ d) ∧
    get_replies (mkChild "root" 0 "top"
        [mkChild "p" 3 "pp" [mkChild "q" 2 "qq" []],
         mkChild "s" 2 "ss" [mkChild "t" 3 "tt" [mkChild "u" 4 "uu" [mkChild "v" 5 "vv" []]]],
         mkChild "w" 1 "ww" []]) 2 =
      [("s", ⟨2, mkChild "s" 2 "ss"
          [mkChild "t" 3 "tt" [mkChild "u" 4 "uu" [mkChild "v" 5 "vv" []]]]⟩),
       ("w", ⟨1, mkChild "w" 1 "ww" []⟩)] := by
  constructor
  · intro v d e hd he
    exact ((repliesEntriesAux (sizeOf v)).1 v le_rfl d e he).2 hd
  · simp +decide [get_replies, repliesLoop, mkChild, Json.childrenOf,
      Json.lookup, Json.lookupField, Json.asArray, childId, childDepth, childBody, wrap32,
      Json.asStr, Json.asI64, blankBody, RMap.insert, RMap.extend]

/-- Rust `str::to_lowercase` on the ASCII range these comparisons use:
per-character lowercasing. -/
def toLowercase (s : String) : String := ⟨s.data.map Char.toLower⟩

/-- Does the needle occur as a prefix-at-some-position of the haystack list? -/
def infixOf (needle : List Char) : List Char → Bool
  | [] => needle.isEmpty
  | c :: rest => needle.isPrefixOf (c :: rest) || infixOf needle rest

/-- Rust `str::contains(&needle)`: the needle occurs as a contiguous substring
of the haystack. -/
def containsSubstr (haystack needle : String) : Bool := infixOf needle.data haystack.data

/-- Embeds `apply_filter` of `src/rust/src/filters.rs` (lines 4-47). The
`regex` crate is outside the repository, so its two calls — `Regex::new`
(which may fail) and `is_match` — enter as the injected `regexEngine`
parameter: `none` models a pattern that fails to compile, `some m` a compiled
pattern with matcher `m`. Rule order as in the source: keywords
(case-folded substring), author denylist (exact), score threshold, then the
regex denylist; first match returns `filtered_message`, otherwise the body is
returned unchanged. -/
def apply_filter (regexEngine : String → Option (String → Bool))
    (author text : String) (upvotes : Int)
    (filtered_keywords filtered_authors : List String)
    (min_upvotes : Int) (filtered_regexes : List String)
    (filtered_message : String) : String :=
  if filtered_keywords.any (fun kw => containsSubstr (toLowercase text) (toLowercase kw)) then
    filtered_message
  else if filtered_authors.contains author then
    filtered_message
  else if upvotes < min_upvotes then
    filtered_message
  else if filtered_regexes.any (fun rgx =>
      match regexEngine rgx with
      | some matcher => matcher text
      | none => false) then
    filtered_message
  else
    text

/-- C6: when no keyword occurs case-folded in the body, the author is not
denylisted, the score is not below the threshold and no validly-compiled
denylist regex matches, `apply_filter` returns the body unchanged,
byte for byte. -/
theorem apply_filter_passthrough (regexEngine : String → Option (String → Bool))
    (author text : String) (upvotes : Int)
    (filtered_keywords filtered_authors : List String)
    (min_upvotes : Int) (filtered_regexes : List String) (filtered_message : String)
    (hkw : ∀ kw ∈ filtered_keywords,
      containsSubstr (toLowercase text) (toLowercase kw) = false)
    (hauth : filtered_authors.contains author = false)
    (hscore : ¬upvotes < min_upvotes)
    (hrgx : ∀ r ∈ filtered_regexes, ∀ m, regexEngine r = some m → m text = false) :
    apply_filter regexEngine author text upvotes filtered_keywords filtered_authors
      min_upvotes filtered_regexes filtered_message = text := by
  have h1 : (filtered_keywords.any fun kw =>
      containsSubstr (toLowercase text) (toLowercase kw)) = false := by
    rw [List.any_eq_false]
    intro kw hk
    simp [hkw kw hk]
  have h4 : (filtered_regexes.any fun rgx =>
      match regexEngine rgx with
      | some matcher => matcher text
      | none => false) = false := by
    rw [List.any_eq_false]
    intro r hr
    cases he : regexEngine r with
    | none => simp
    | some m => simpa using hrgx r hr m he
  have hauth₂ : author ∉ filtered_authors := by simpa using hauth
  simp [apply_filter, h1, hauth₂, hscore, h4]

/-- Witness for C6 at a concrete clean comment. -/
theorem apply_filter_passthrough_witness :
    apply_filter (fun _ => none) "alice" "hello world" 3 ["spam"] ["bob"] 1 ["["]
      "[filtered]" = "hello world" :=
  apply_filter_passthrough (fun _ => none) "alice" "hello world" 3 ["spam"] ["bob"] 1 ["["]
    "[filtered]" (by decide) (by decide) (by decide)
    (fun r hr m hm => by simp at hm)

/-- C7: a denylist pattern the regex engine cannot compile is skipped
silently — it is never treated as a match and never surfaced — so the
filter's result with it present equals the result with it removed, for every
input. -/
theorem apply_filter_invalid_regex_skipped (regexEngine : String → Option (String → Bool))
    (author text : String) (upvotes : Int)
    (filtered_keywords filtered_authors : List String)
    (min_upvotes : Int) (rgxs₁ rgxs₂ : List String) (bad : String)
    (filtered_message : String) (hbad : regexEngine bad = none) :
    apply_filter regexEngine author text upvotes filtered_keywords filtered_authors
        min_upvotes (rgxs₁ ++ bad :: rgxs₂) filtered_message =
      apply_filter regexEngine author text upvotes filtered_keywords filtered_authors
        min_upvotes (rgxs₁ ++ rgxs₂) filtered_message := by
  have hcond : ((rgxs₁ ++ bad :: rgxs₂).any fun rgx =>
      match regexEngine rgx with
      | some matcher => matcher text
      | none => false) = ((rgxs₁ ++ rgxs₂).any fun rgx =>
      match regexEngine rgx with
      | some matcher => matcher text
      | none => false) := by
    simp [List.any_append, List.any_cons, hbad]
  simp only [apply_filter, hcond]

/-- Witness for C7 at a concrete non-compiling pattern. -/
theorem apply_filter_invalid_regex_skipped_witness :
    apply_filter (fun _ => none) "alice" "hello" 3 [] [] 0 ([] ++ "[" :: ["x"])
      "[filtered]" =
      apply_filter (fun _ => none) "alice" "hello" 3 [] [] 0 ([] ++ ["x"]) "[filtered]" :=
  apply_filter_invalid_regex_skipped (fun _ => none) "alice" "hello" 3 [] [] 0 [] ["x"] "["
    "[filtered]" rfl

/-- Decimal digits of `n`, most significant first, by fuel-bounded division;
the fuel `n + 1` always suffices (`natReprList_eq`). This is the rendering
Rust's `format!` integer formatting produces. -/
def natReprAux : Nat → Nat → List Char
  | 0, _ => []
  | fuel + 1, n =>
    if n < 10 then [Nat.digitChar n]
    else natReprAux fuel (n / 10) ++ [Nat.digitChar (n % 10)]

/-- The decimal digit characters of `n`. -/
def natReprList (n : Nat) : List Char := natReprAux (n + 1) n

/-- `format!` of a `usize`/non-negative integer: its decimal numeral. -/
def natRepr (n : Nat) : String := ⟨natReprList n⟩

/-- `format!` of a signed integer: sign, then the decimal numeral. -/
def intRepr (n : Int) : String :=
  if n < 0 then "-" ++ natRepr (-n).toNat else natRepr n.toNat

theorem natReprAux_fuel (n : Nat) : ∀ (f g : Nat), n < f → n < g →
    natReprAux f n = natReprAux g n := by
  induction n using Nat.strong_induction_on with
  | _ n ih =>
    intro f g hf hg
    match f, g, hf, hg with
    | f + 1, g + 1, hf, hg =>
      by_cases h : n < 10
      · simp [natReprAux, h]
      · have hdiv : n / 10 < n := Nat.div_lt_self (by omega) (by omega)
        simp only [natReprAux, if_neg h]
        rw [ih (n / 10) hdiv f g (by omega) (by omega)]

theorem natReprList_eq (n : Nat) : natReprList n =
    if n < 10 then [Nat.digitChar n]
    else natReprList (n / 10) ++ [Nat.digitChar (n % 10)] := by
  by_cases h : n < 10
  · simp [natReprList, natReprAux, h]
  · have hdiv : n / 10 < n := Nat.div_lt_self (by omega) (by omega)
    rw [if_neg h]
    simp only [natReprList]
    rw [natReprAux, if_neg h, natReprAux_fuel (n / 10) n (n / 10 + 1) (by omega) (by omega)]

theorem natReprList_ne_nil (n : Nat) : natReprList n ≠ [] := by
  rw [natReprList_eq]
  split <;> simp

/-- Rust `str::replace(pattern, replacement)` for a non-empty pattern:
replace the leftmost non-overlapping occurrences, scanning with fuel bounded
by the text length (one fuel per consumed head character, which always
suffices). -/
def replaceFuel (pat rep : List Char) : Nat → List Char → List Char
  | 0, l => l
  | _ + 1, [] => []
  | fuel + 1, c :: rest =>
    if pat ≠ [] ∧ pat.isPrefixOf (c :: rest) then
      rep ++ replaceFuel pat rep fuel (List.drop pat.length (c :: rest))
    else
      c :: replaceFuel pat rep fuel rest

/-- Rust `str::replace` on strings (non-empty pattern). -/
def strReplace (s pat rep : String) : String :=
  ⟨replaceFuel pat.data rep.data s.data.length s.data⟩

/-- `format_timestamp` of `src/rust/src/post_renderer/formatting.rs`
(lines 3-9). -/
def format_timestamp (timestamp : String) (show_timestamp : Bool) : String :=
  if show_timestamp ∧ timestamp ≠ "" then "_( " ++ timestamp ++ " )_" else ""

/-- `format_upvotes` of `src/rust/src/post_renderer/formatting.rs`
(lines 11-21): empty unless shown and positive; thousands are integer-divided
and suffixed `k`. -/
def format_upvotes (upvotes : Int) (show_upvotes : Bool) : String :=
  if show_upvotes ∧ upvotes > 0 then
    if upvotes ≥ 1000 then "⬆️ " ++ intRepr (upvotes / 1000) ++ "k"
    else "⬆️ " ++ intRepr upvotes
  else ""

/-- `escape_selftext` of `src/rust/src/post_renderer/formatting.rs`
(lines 71-76): decode exactly the four HTML entities. -/
def escape_selftext (text : String) : String :=
  strReplace (strReplace (strReplace (strReplace text "&amp;" "&") "&lt;" "<")
    "&gt;" ">") "&quot;" "\""

/-- The `PostInfo` record `extract_post_info` builds
(`src/rust/src/post_renderer/content_builder.rs` lines 58-92, 154-163); its
`timestamp` field already holds the chrono-formatted string, so the clock
stays outside the embedding. -/
structure PostInfo where
  title : String
  author : String
  subreddit : String
  upvotes : Int
  locked : Bool
  selftext : String
  url : String
  timestamp : String

/-- `build_post_header` (content_builder.rs lines 94-112): the three header
lines pushed first. -/
def build_post_header (p : PostInfo) (s : Settings) : List String :=
  ["**" ++ p.subreddit ++ "** | Posted by u/" ++ p.author ++ " " ++
      format_upvotes p.upvotes s.show_upvotes ++ " " ++
      format_timestamp p.timestamp s.show_timestamp ++ "\n",
   "## " ++ p.title ++ "\n",
   "Original post: [" ++ p.url ++ "](" ++ p.url ++ ")\n"]

/-- `build_post_content_body` (content_builder.rs lines 114-124): the quoted
selftext block, pushed when the selftext is non-empty. -/
def build_post_content_body (p : PostInfo) : List String :=
  if p.selftext ≠ "" then
    ["> " ++ strReplace (escape_selftext p.selftext) "\n" "\n> " ++ "\n"]
  else []

/-- `build_lock_message` (content_builder.rs lines 126-139): the moderator
lock notice, pushed when the post is locked. The glyph before the bold text
is the four characters the source file stores (a mis-encoded lock emoji). -/
def build_lock_message (p : PostInfo) : List String :=
  if p.locked then
    ["---\n\n>ðŸ”’ **This thread has been locked by the moderators of " ++
      p.subreddit ++ "**.\n  New comments cannot be posted\n\n"]
  else []

/-- `build_post_content` (content_builder.rs lines 23-56): the ordered list
of text fragments — header, selftext body, lock message, media section (when
enabled), reply section, trailing blank line — that the builder joins into
the document. The media collaborator's fragments (`process_media`) and the
reply section (`process_replies`) enter as parameters: both sit after the
lock message in the push order, and the claims below quantify over them. -/
def build_post_content_lines (p : PostInfo) (s : Settings)
    (mediaLines replyLines : List String) : List String :=
  build_post_header p s ++ build_post_content_body p ++ build_lock_message p ++
    (if s.enable_media_downloads then mediaLines else []) ++ replyLines ++ ["\n"]

/-- C8: the claim says the lock notice precedes the selftext block. The code
pushes `build_post_content_body` before `build_lock_message`, so for every
locked post with a non-empty selftext the quoted selftext fragment comes
first: on a concrete locked post the emitted lines are the three header
lines, then the selftext quote, then the lock notice. -/
theorem selftext_emitted_before_lock_notice :
    build_post_content_lines
        { title := "T", author := "alice", subreddit := "r/test", upvotes := 0,
          locked := true, selftext := "hello", url := "u", timestamp := "" }
        sampleSettings [] [] =
      ["**r/test** | Posted by u/alice  \n", "## T\n", "Original post: [u](u)\n",
       "> hello\n",
       "---\n\n>ðŸ”’ **This thread has been locked by the moderators of r/test**.\n  New comments cannot be posted\n\n",
       "\n"] ∧
    (∀ (p : PostInfo) (s : Settings) (mediaLines replyLines : List String),
      p.locked = true → p.selftext ≠ "" →
      build_post_content_lines p s mediaLines replyLines =
        build_post_header p s ++
          ("> " ++ strReplace (escape_selftext p.selftext) "\n" "\n> " ++ "\n") ::
          ("---\n\n>ðŸ”’ **This thread has been locked by the moderators of " ++
            p.subreddit ++ "**.\n  New comments cannot be posted\n\n") ::
          ((if s.enable_media_downloads then mediaLines else []) ++ replyLines ++ ["\n"])) := by
  constructor
  · decide
  · intro p s mediaLines replyLines hlock hself
    simp [build_post_content_lines, build_post_content_body, build_lock_message, hlock, hself]

/-- Witness for C4 at a concrete collected entry of the depth-limited run. -/
theorem depth_pruning_skips_subtrees_witness :
    ((("w", ⟨1, mkChild "w" 1 "ww" []⟩) : String × ChildInfo)).2.depth ≤ 2 :=
  depth_pruning_skips_subtrees.1
    (mkChild "root" 0 "top"
      [mkChild "p" 3 "pp" [mkChild "q" 2 "qq" []],
       mkChild "s" 2 "ss" [mkChild "t" 3 "tt" [mkChild "u" 4 "uu" [mkChild "v" 5 "vv" []]]],
       mkChild "w" 1 "ww" []]) 2 ("w", ⟨1, mkChild "w" 1 "ww" []⟩) (by decide)
    (by simp +decide [get_replies, repliesLoop, mkChild, Json.childrenOf,
      Json.lookup, Json.lookupField, Json.asArray, childId, childDepth, childBody, wrap32,
      Json.asStr, Json.asI64, blankBody, RMap.insert, RMap.extend])



theorem digitChar_inj : ∀ a, a < 10 → ∀ b, b < 10 → Nat.digitChar a = Nat.digitChar b → a = b := by
  decide

theorem natReprList_inj : ∀ n m : Nat, natReprList n = natReprList m → n = m := by
  intro n
  induction n using Nat.strong_induction_on with
  | _ n ih =>
    intro m h
    rw [natReprList_eq n, natReprList_eq m] at h
    by_cases hn : n < 10 <;> by_cases hm : m < 10
    · rw [if_pos hn, if_pos hm] at h
      exact digitChar_inj n hn m hm (by simpa using h)
    · rw [if_pos hn, if_neg hm] at h
      have hlen := congrArg List.length h
      simp at hlen
      exact absurd hlen (natReprList_ne_nil _)
    · rw [if_neg hn, if_pos hm] at h
      have hlen := congrArg List.length h
      simp at hlen
      exact absurd hlen (natReprList_ne_nil _)
    · rw [if_neg hn, if_neg hm] at h
      have hlen : (natReprList (n / 10)).length = (natReprList (m / 10)).length := by
        have hl := congrArg List.length h
        simp at hl
        omega
      obtain ⟨h1, h2⟩ := List.append_inj h hlen
      have hq := ih (n / 10) (Nat.div_lt_self (by omega) (by omega)) (m / 10) h1
      have hr : n % 10 = m % 10 :=
        digitChar_inj _ (Nat.mod_lt _ (by omega)) _ (Nat.mod_lt _ (by omega)) (by simpa using h2)
      omega

theorem string_ext {s t : String} (h : s.data = t.data) : s = t := by
  cases s
  cases t
  simp at h
  rw [h]

def pathJoin (dir name : String) : String := dir ++ "/" ++ name

def probeName (stem ext : String) (suffix : Nat) : String :=
  stem ++ "_" ++ natRepr suffix ++ "." ++ ext

theorem probePath_data (dir stem ext : String) (n : Nat) :
    (pathJoin dir (probeName stem ext n)).data =
      (dir.data ++ '/' :: stem.data ++ ['_']) ++ natReprList n ++ ('.' :: ext.data) := by
  simp [pathJoin, probeName, String.data_append, natRepr]

theorem affix_inj (pre suf : List Char) {x y : List Char}
    (h : pre ++ x ++ suf = pre ++ y ++ suf) : x = y := by
  rw [List.append_assoc, List.append_assoc] at h
  have h₁ := List.append_cancel_left h
  have hlen : x.length = y.length := by
    have := congrArg List.length h₁
    simp at this
    omega
  exact (List.append_inj h₁ hlen).1

theorem probePath_inj (dir stem ext : String) {j k : Nat}
    (h : pathJoin dir (probeName stem ext j) = pathJoin dir (probeName stem ext k)) : j = k := by
  have hd := congrArg String.data h
  rw [probePath_data, probePath_data] at hd
  exact natReprList_inj j k (affix_inj _ _ hd)

theorem exists_free_probe (fs : List String) (dir stem ext : String) :
    ∃ j, j < fs.length + 1 ∧
      fs.contains (pathJoin dir (probeName stem ext (1 + j))) = false := by
  by_contra hcon
  push_neg at hcon
  have hall : ∀ j < fs.length + 1, pathJoin dir (probeName stem ext (1 + j)) ∈ fs := by
    intro j hj
    have hj₂ := hcon j hj
    simpa using hj₂
  have hinj : Function.Injective (fun j : Nat => pathJoin dir (probeName stem ext (1 + j))) := by
    intro a b hab
    have := probePath_inj dir stem ext hab
    omega
  have hnodup : ((List.range (fs.length + 1)).map
      (fun j => pathJoin dir (probeName stem ext (1 + j)))).Nodup :=
    (List.nodup_range _).map hinj
  have hsub : ∀ x ∈ (List.range (fs.length + 1)).map
      (fun j => pathJoin dir (probeName stem ext (1 + j))), x ∈ fs := by
    intro x hx
    rcases List.mem_map.mp hx with ⟨j, hj, rfl⟩
    exact hall j (List.mem_range.mp hj)
  have hcard : fs.length + 1 ≤ fs.length := by
    have h₁ : ((List.range (fs.length + 1)).map
        (fun j => pathJoin dir (probeName stem ext (1 + j)))).toFinset.card = fs.length + 1 := by
      rw [List.toFinset_card_of_nodup hnodup]
      simp
    have h₂ : ((List.range (fs.length + 1)).map
        (fun j => pathJoin dir (probeName stem ext (1 + j)))).toFinset ⊆ fs.toFinset := by
      intro x hx
      rw [List.mem_toFinset] at hx ⊢
      exact hsub x hx
    have h₃ := Finset.card_le_card h₂
    have h₄ := fs.toFinset_card_le
    omega
  omega



/-- The suffix-probing `loop` of `generate_filename`. -/
def probeLoop (fs : List String) (dir stem ext : String) : Nat → Nat → String
  | 0, suffix => pathJoin dir (probeName stem ext suffix)
  | fuel + 1, suffix =>
    if fs.contains (pathJoin dir (probeName stem ext suffix)) then
      probeLoop fs dir stem ext fuel (suffix + 1)
    else pathJoin dir (probeName stem ext suffix)

theorem probeLoop_spec (fs : List String) (dir stem ext : String) : ∀ (fuel start : Nat),
    (∃ j, j < fuel ∧ fs.contains (pathJoin dir (probeName stem ext (start + j))) = false) →
    ∃ k, probeLoop fs dir stem ext fuel start = pathJoin dir (probeName stem ext (start + k)) ∧
      fs.contains (pathJoin dir (probeName stem ext (start + k))) = false ∧
      ∀ j < k, fs.contains (pathJoin dir (probeName stem ext (start + j))) = true := by
  intro fuel
  induction fuel with
  | zero =>
    intro start h
    obtain ⟨j, hj, _⟩ := h
    omega
  | succ fuel ih =>
    intro start h
    by_cases hc : fs.contains (pathJoin dir (probeName stem ext start)) = true
    · obtain ⟨j, hj, hfree⟩ := h
      have hj0 : j ≠ 0 := by
        intro h0
        subst h0
        rw [Nat.add_zero] at hfree
        rw [hc] at hfree
        exact Bool.noConfusion hfree
      have hshift : (start + 1) + (j - 1) = start + j := by omega
      have h₂ : ∃ j₂, j₂ < fuel ∧
          fs.contains (pathJoin dir (probeName stem ext ((start + 1) + j₂))) = false :=
        ⟨j - 1, by omega, by rw [hshift]; exact hfree⟩
      obtain ⟨k, hk₁, hk₂, hk₃⟩ := ih (start + 1) h₂
      have heq : (start + 1) + k = start + (k + 1) := by omega
      refine ⟨k + 1, ?_, ?_, ?_⟩
      · simp only [probeLoop, if_pos hc]
        rw [← heq]
        exact hk₁
      · rw [← heq]
        exact hk₂
      · intro j hjk
        cases j with
        | zero => simpa using hc
        | succ j =>
          have hj₃ := hk₃ j (by omega)
          have heq₂ : (start + 1) + j = start + (j + 1) := by omega
          rw [← heq₂]
          exact hj₃
    · refine ⟨0, ?_, ?_, ?_⟩
      · simp only [probeLoop, if_neg hc, Nat.add_zero]
      · rw [Nat.add_zero]
        simpa using hc
      · intro j hj
        omega

/-- Rust `url.trim_end_matches('/')`. -/
def trimEndMatchesChar (c : Char) (s : String) : String :=
  ⟨(s.data.reverse.dropWhile (fun x => x = c)).reverse⟩

/-- Rust `str::split(sep)`: the fragments between separators, empties kept;
`cur` accumulates the current fragment reversed. -/
def splitCharAux (sep : Char) : List Char → List Char → List String
  | [], cur => [⟨cur.reverse⟩]
  | c :: rest, cur =>
    if c = sep then (⟨cur.reverse⟩ : String) :: splitCharAux sep rest []
    else splitCharAux sep rest (c :: cur)

def splitChar (sep : Char) (s : String) : List String := splitCharAux sep s.data []

theorem splitCharAux_ne_nil (sep : Char) : ∀ (l cur : List Char), splitCharAux sep l cur ≠ []
  | [], cur => by simp [splitCharAux]
  | c :: rest, cur => by
    simp only [splitCharAux]
    split
    · simp
    · exact splitCharAux_ne_nil sep rest (c :: cur)

/-- The `name_candidate` computation of `generate_filename`
(`src/rust/src/reddit_utils/file_ops.rs` lines 74-82): the last fragment of
the slash-trimmed URL split on `/`, with the timestamp fallback that Rust's
`split(..).last()` (which never yields `None`) makes unreachable. -/
def name_candidate (url : String) (nowEpoch : Int) : String :=
  ((splitChar '/' (trimEndMatchesChar '/' url)).getLast?).getD
    ("reddit_no_name_" ++ intRepr nowEpoch)

/-- The position of the last `.` in a file name's characters. -/
def lastDotPos : List Char → Option Nat
  | [] => none
  | c :: rest =>
    match lastDotPos rest with
    | some i => some (i + 1)
    | none => if c = '.' then some 0 else none

/-- Rust `Path::file_stem` on a file name (also what `with_extension("")`
keeps): everything before the last `.`, the whole name when there is no `.`
or when the only `.` leads the name. -/
def fileStem (f : String) : String :=
  match lastDotPos f.data with
  | none => f
  | some 0 => f
  | some i => ⟨f.data.take i⟩

/-- The directory `generate_filename` builds: base, then the subreddit with a
leading `r/` stripped (when non-empty), then the `YYYY-MM-DD` bucket when
timestamped directories are on. The chrono calls enter as parameters:
`parseDate` models parse-then-reformat of the post timestamp, `nowDate`
today's date (the fallback). `ensure_dir_exists` only touches the disk and
never alters the returned path. -/
def gf_subdir (base_dir subreddit : String) (use_timestamped_dirs : Bool)
    (post_timestamp nowDate : String) (parseDate : String → Option String) : String :=
  let sub := if "r/".data.isPrefixOf subreddit.data then (⟨subreddit.data.drop 2⟩ : String)
    else subreddit
  let subdir := if sub ≠ "" then pathJoin base_dir sub else base_dir
  if use_timestamped_dirs ∧ post_timestamp ≠ "" then
    pathJoin subdir ((parseDate post_timestamp).getD nowDate)
  else subdir

/-- The extension `generate_filename` picks (file_ops.rs lines 108-112). -/
def gf_ext (file_format : String) : String :=
  if toLowercase file_format = "html" then "html" else "md"

/-- The candidate path `generate_filename` tries first. -/
def candidate_path (base_dir url subreddit : String) (use_timestamped_dirs : Bool)
    (post_timestamp file_format : String) (nowEpoch : Int) (nowDate : String)
    (parseDate : String → Option String) : String :=
  pathJoin (gf_subdir base_dir subreddit use_timestamped_dirs post_timestamp nowDate parseDate)
    (name_candidate url nowEpoch ++ "." ++ gf_ext file_format)

/-- Embeds `generate_filename` of `src/rust/src/reddit_utils/file_ops.rs`
(lines 61-152) over an explicit filesystem `fs` (the set of existing paths):
when the candidate exists and `overwrite` is false, probe
`stem_1.ext, stem_2.ext, …` where the stem comes from `with_extension("")`
followed by `file_stem()`; the loop's fuel `fs.length + 1` always suffices
(`exists_free_probe`). -/
def generate_filename (base_dir url subreddit : String) (use_timestamped_dirs : Bool)
    (post_timestamp file_format : String) (overwrite : Bool) (fs : List String)
    (nowEpoch : Int) (nowDate : String) (parseDate : String → Option String) : String :=
  let subdir := gf_subdir base_dir subreddit use_timestamped_dirs post_timestamp nowDate parseDate
  let ext := gf_ext file_format
  let file_path := pathJoin subdir (name_candidate url nowEpoch ++ "." ++ ext)
  if fs.contains file_path then
    if overwrite then file_path
    else
      probeLoop fs subdir
        (fileStem (fileStem (name_candidate url nowEpoch ++ "." ++ ext))) ext
        (fs.length + 1) 1
  else file_path

theorem generate_filename_dotted_candidate :
    generate_filename "d" "https://host/v1.2" "" false "" "md" false ["d/v1.2.md"] 0 ""
        (fun _ => none) = "d/v1_1.md" ∧
    "d/v1_1.md" ≠ "d/v1.2_1.md" := by
  constructor
  · decide
  · decide

theorem generate_filename_collision_probing :
    (∀ (base_dir url subreddit : String) (ut : Bool) (pts ff : String) (fs : List String)
        (ne : Int) (nd : String) (pd : String → Option String),
      fs.contains (candidate_path base_dir url subreddit ut pts ff ne nd pd) = true →
      generate_filename base_dir url subreddit ut pts ff true fs ne nd pd =
        candidate_path base_dir url subreddit ut pts ff ne nd pd) ∧
    (∀ (base_dir url subreddit : String) (ut : Bool) (pts ff : String) (fs : List String)
        (ne : Int) (nd : String) (pd : String → Option String),
      fs.contains (candidate_path base_dir url subreddit ut pts ff ne nd pd) = true →
      ∃ k, 1 ≤ k ∧
        generate_filename base_dir url subreddit ut pts ff false fs ne nd pd =
          pathJoin (gf_subdir base_dir subreddit ut pts nd pd)
            (probeName (fileStem (fileStem (name_candidate url ne ++ "." ++ gf_ext ff)))
              (gf_ext ff) k) ∧
        fs.contains (pathJoin (gf_subdir base_dir subreddit ut pts nd pd)
            (probeName (fileStem (fileStem (name_candidate url ne ++ "." ++ gf_ext ff)))
              (gf_ext ff) k)) = false ∧
        ∀ j, 1 ≤ j → j < k →
          fs.contains (pathJoin (gf_subdir base_dir subreddit ut pts nd pd)
            (probeName (fileStem (fileStem (name_candidate url ne ++ "." ++ gf_ext ff)))
              (gf_ext ff) j)) = true) ∧
    generate_filename "d" "https://host/post" "" false "" "md" false ["d/post.md"] 0 ""
        (fun _ => none) = "d/post_1.md" ∧
    generate_filename "d" "https://host/post" "" false "" "md" false
        ["d/post.md", "d/post_1.md"] 0 "" (fun _ => none) = "d/post_2.md" := by
  refine ⟨?_, ?_, by decide, by decide⟩
  · intro base_dir url subreddit ut pts ff fs ne nd pd h
    simp only [generate_filename, candidate_path] at h ⊢
    rw [if_pos h, if_pos trivial]
  · intro base_dir url subreddit ut pts ff fs ne nd pd h
    simp only [generate_filename, candidate_path] at h ⊢
    rw [if_pos h]
    simp only [Bool.false_eq_true, if_false]
    obtain ⟨j, hj, hfree⟩ := exists_free_probe fs
      (gf_subdir base_dir subreddit ut pts nd pd)
      (fileStem (fileStem (name_candidate url ne ++ "." ++ gf_ext ff))) (gf_ext ff)
    obtain ⟨k, hk₁, hk₂, hk₃⟩ := probeLoop_spec fs
      (gf_subdir base_dir subreddit ut pts nd pd)
      (fileStem (fileStem (name_candidate url ne ++ "." ++ gf_ext ff))) (gf_ext ff)
      (fs.length + 1) 1 ⟨j, hj, hfree⟩
    refine ⟨1 + k, by omega, hk₁, hk₂, ?_⟩
    intro j₂ hj₂ hj₂k
    have heq : 1 + (j₂ - 1) = j₂ := by omega
    have := hk₃ (j₂ - 1) (by omega)
    rw [heq] at this
    exact this

theorem url_without_segment_empty_name :
    name_candidate "///" 12345 = "" ∧
    generate_filename "d" "///" "" false "" "md" false [] 12345 "" (fun _ => none) = "d/.md" ∧
    (∀ s : String, 0 < (splitChar '/' s).length) := by
  refine ⟨by decide, by decide, ?_⟩
  intro s
  have h := splitCharAux_ne_nil '/' s.data []
  exact List.length_pos.mpr h



/-- The children computation of the legacy `get_replies`
(`src/rust/src/reddit_utils_old.rs` lines 89-93): the `/data/replies` pointer
is bound to `replies_obj` first, then `/data/children` and `as_array`. -/
def Json.childrenOfOld (reply_data : Json) : Option (List Json) :=
  let replies_obj := (reply_data.lookup "data").bind (Json.lookup "replies")
  (replies_obj.bind (fun r => (r.lookup "data").bind (Json.lookup "children"))).bind Json.asArray

theorem Json.childrenOfOld_eq (v : Json) : Json.childrenOfOld v = Json.childrenOf v := by
  cases hx : (v.lookup "data").bind (Json.lookup "replies") with
  | none => simp [Json.childrenOfOld, Json.childrenOf, hx]
  | some r => simp [Json.childrenOfOld, Json.childrenOf, hx]

mutual

/-- Embeds the legacy `get_replies` of `src/rust/src/reddit_utils_old.rs`
(lines 85-137), kept verbatim in the repository next to the current one. -/
def get_replies_old (reply_data : Json) (max_depth : Int) : RMap :=
  match h : Json.childrenOfOld reply_data with
  | none => []
  | some children => repliesLoopOld children max_depth []
termination_by sizeOf reply_data
decreasing_by
exact Json.sizeOf_childrenOf (Json.childrenOfOld_eq reply_data ▸ h)

/-- The `for child in children` loop of the legacy `get_replies`. -/
def repliesLoopOld : List Json → Int → RMap → RMap
  | [], _, collected => collected
  | child :: rest, max_depth, collected =>
    if max_depth ≠ -1 ∧ childDepth child > max_depth then
      repliesLoopOld rest max_depth collected
    else if blankBody (childBody child) then
      repliesLoopOld rest max_depth collected
    else
      repliesLoopOld rest max_depth
        (RMap.extend (RMap.insert (childId child) ⟨childDepth child, child⟩ collected)
          (get_replies_old child max_depth))
termination_by children _ _ => sizeOf children
decreasing_by
all_goals simp
all_goals omega

end

theorem get_replies_old_eq_none {v : Json} {d : Int} (h : Json.childrenOfOld v = none) :
    get_replies_old v d = [] := by
  rw [get_replies_old, h]

theorem get_replies_old_eq_some {v : Json} {d : Int} {cs : List Json}
    (h : Json.childrenOfOld v = some cs) : get_replies_old v d = repliesLoopOld cs d [] := by
  rw [get_replies_old, h]

theorem repliesLoopOld_nil {d : Int} {acc : RMap} : repliesLoopOld [] d acc = acc := by
  rw [repliesLoopOld]

theorem repliesLoopOld_cons {c : Json} {rest : List Json} {d : Int} {acc : RMap} :
    repliesLoopOld (c :: rest) d acc =
      if d ≠ -1 ∧ childDepth c > d then repliesLoopOld rest d acc
      else if blankBody (childBody c) then repliesLoopOld rest d acc
      else repliesLoopOld rest d
        (RMap.extend (RMap.insert (childId c) ⟨childDepth c, c⟩ acc) (get_replies_old c d)) := by
  rw [repliesLoopOld]

theorem oldNewAux : ∀ n : Nat,
    (∀ v : Json, sizeOf v ≤ n → ∀ d : Int, get_replies_old v d = get_replies v d) ∧
    (∀ l : List Json, sizeOf l ≤ n → ∀ (d : Int) (acc : RMap),
      repliesLoopOld l d acc = repliesLoop l d acc) := by
  intro n
  induction n using Nat.strong_induction_on with
  | _ n ih =>
    constructor
    · intro v hv d
      rcases hc : Json.childrenOf v with _ | children
      · rw [get_replies_old_eq_none (by rw [Json.childrenOfOld_eq]; exact hc),
          get_replies_eq_none hc]
      · rw [get_replies_old_eq_some (by rw [Json.childrenOfOld_eq]; exact hc),
          get_replies_eq_some hc]
        have hsz : sizeOf children < n := lt_of_lt_of_le (Json.sizeOf_childrenOf hc) hv
        exact (ih (sizeOf children) hsz).2 children le_rfl d []
    · intro l hl d acc
      cases l with
      | nil => rw [repliesLoopOld_nil, repliesLoop_nil]
      | cons child rest =>
        have hsrest : sizeOf rest < n := by
          have h₁ : sizeOf rest < sizeOf (child :: rest) := by simp
          omega
        have hschild : sizeOf child < n := by
          have h₁ : sizeOf child < sizeOf (child :: rest) := by
            simp
            omega
          omega
        rw [repliesLoopOld_cons, repliesLoop_cons]
        by_cases h1 : d ≠ -1 ∧ childDepth child > d
        · rw [if_pos h1, if_pos h1]
          exact (ih (sizeOf rest) hsrest).2 rest le_rfl d acc
        · by_cases h2 : blankBody (childBody child)
          · rw [if_neg h1, if_pos h2, if_neg h1, if_pos h2]
            exact (ih (sizeOf rest) hsrest).2 rest le_rfl d acc
          · rw [if_neg h1, if_neg h2, if_neg h1, if_neg h2]
            rw [(ih (sizeOf child) hschild).1 child le_rfl d]
            exact (ih (sizeOf rest) hsrest).2 rest le_rfl d _

/-- C10: the legacy flattener `get_replies` of `reddit_utils_old.rs` and the
current one of `reddit_utils/replies.rs` compute the same map on every reply
JSON value and every depth limit: the only textual difference is an
intermediate binding for the `/data/replies` pointer. -/
theorem get_replies_old_eq_new (v : Json) (d : Int) :
    get_replies_old v d = get_replies v d :=
  (oldNewAux (sizeOf v)).1 v le_rfl d

end RedditMarkdown
